import Mathlib

/-!
Verification of the portfolio-Beta calculator (`src/main.py`).

Shallow embedding of the computational core of the repository:
`calculate_individual_beta`, `calculate_portfolio_beta` and
`calculate_portfolio_weights`.  Prices and returns are modelled as exact
rationals; a price series is an ordered association list from dates (naturals)
to prices.

Modelling of floating-point exceptional values: the Python code performs plain
float divisions and never raises on degenerate statistical input.  Pandas
returns `NaN` for a sample variance or covariance of fewer than two
observations (the `ddof = 1` denominator is zero) and float division by a zero
variance yields `inf` or `NaN`.  These non-finite float outcomes are modelled
as `none`; a `some q` result is a finite value.  In
`calculate_portfolio_weights` the outer `Option` models a Python `KeyError`
(missing price) and the inner `Option ℚ` entries model non-finite float
weights produced by dividing by a zero total value.
-/

namespace BetaCalc

/-- A price series: ordered `(date, adjustedClosePrice)` pairs for one ticker,
as produced by the data provider (dates strictly increasing, no duplicates). -/
abbrev PriceSeries := List (ℕ × ℚ)

/-- Embedding of `pd.concat([stock_data, index_data], axis=1).dropna()`
(lines 46-47 of `main.py`): the rows surviving `dropna` are exactly the dates
present in both series, in order, carrying the pair (stock price, index
price). -/
def alignSeries (stockData indexData : PriceSeries) : List (ℚ × ℚ) :=
  stockData.filterMap (fun dp => (indexData.lookup dp.1).map (fun q => (dp.2, q)))

/-- Embedding of `.pct_change().dropna()` (line 48): the simple fractional return
`(price[t] - price[t-1]) / price[t-1]` at every position with a predecessor;
the first row (whose `pct_change` is `NaN`) is dropped. -/
def pctChange (xs : List ℚ) : List ℚ :=
  (xs.zip xs.tail).map (fun pq => (pq.2 - pq.1) / pq.1)

/-- Arithmetic mean of a list (junk value `0` on the empty list, as `ℚ`
division by zero is zero; the code never uses the mean of an empty list in a
finite result). -/
def mean (xs : List ℚ) : ℚ := xs.sum / xs.length

/-- Sum of products of deviations from the respective means, the shared
numerator kernel of covariance and variance. -/
def devSum (xs ys : List ℚ) : ℚ :=
  ((xs.zip ys).map (fun p => (p.1 - mean xs) * (p.2 - mean ys))).sum

/-- Pandas sample covariance (`DataFrame.cov`, default `ddof = 1`):
deviation-product sum divided by `n - 1`. -/
def sampleCov (xs ys : List ℚ) : ℚ := devSum xs ys / ((xs.length : ℚ) - 1)

/-- Pandas sample variance (`Series.var`, default `ddof = 1`). -/
def sampleVar (xs : List ℚ) : ℚ := sampleCov xs xs

/-- Population-convention covariance (denominator `n`), used only to state
that the two conventions give the same Beta ratio. -/
def popCov (xs ys : List ℚ) : ℚ := devSum xs ys / (xs.length : ℚ)

/-- Population-convention variance (denominator `n`). -/
def popVar (xs : List ℚ) : ℚ := popCov xs xs

/-- Lines 49-52 of `main.py` starting from the aligned return series:
`covariance = returns.cov().iloc[0, 1]`, `variance = returns.iloc[:, 1].var()`,
`beta = covariance / variance`.  With fewer than two return observations the
`ddof = 1` statistics are `NaN` in pandas, and with a zero benchmark variance
the float division yields `inf`/`NaN`; both non-finite outcomes are `none`. -/
def betaFromReturns (stockReturns indexReturns : List ℚ) : Option ℚ :=
  if stockReturns.length < 2 ∨ indexReturns.length < 2 then none
  else if sampleVar indexReturns = 0 then none
  else some (sampleCov stockReturns indexReturns / sampleVar indexReturns)

/-- Embedding of `calculate_individual_beta` (lines 45-52 of `main.py`): inner-join the two
price series on date, take percentage returns, and divide the sample
covariance of the two return columns by the sample variance of the index
return column. -/
def calculate_individual_beta (stockData indexData : PriceSeries) : Option ℚ :=
  let aligned := alignSeries stockData indexData
  betaFromReturns (pctChange (aligned.map Prod.fst)) (pctChange (aligned.map Prod.snd))

/-- The provider's price table: an ordered list of (ticker, price series)
columns; `stock_data[ticker]` in the code is lookup by column key. -/
abbrev PriceTable := List (String × PriceSeries)

/-- Sequencing of fallible per-element computations, as a Python `for` loop
that propagates the first failure: `none` as soon as one element fails. -/
def mapOption {α β : Type} (f : α → Option β) : List α → Option (List β)
  | [] => some []
  | a :: l => (f a).bind fun b => (mapOption f l).map fun bs => b :: bs

/-- Embedding of `calculate_portfolio_beta` (lines 55-66 of `main.py`): look up the index
column by key, then for the `i`-th ticker look up its column by key, compute
its individual Beta and weight it by `stock_weights[i]`; sum starting from 0.
`none` models either a missing column (`KeyError`) or a non-finite float
propagating through the sum. -/
def calculate_portfolio_beta (stockTickers : List String) (stockWeights : List ℚ)
    (table : PriceTable) (indexTicker : String) : Option ℚ :=
  (table.lookup indexTicker).bind fun indexData =>
    (mapOption (fun t => (table.lookup t).bind fun sd =>
      calculate_individual_beta sd indexData) stockTickers).map
      fun betas => ((betas.zip stockWeights).map (fun bw => bw.1 * bw.2)).sum

/-- Embedding of `calculate_portfolio_weights` (lines 74-81 of `main.py`).  A single ticker
short-circuits to `[1.0]` before any price lookup.  Otherwise each position
value is `current_prices[ticker] * shares[i]` (price looked up by ticker key,
share taken by position); the outer `Option` is `none` when a lookup raises
`KeyError`, and each weight is the position value divided by the total — an
inner `none` when the total is zero and the float division is non-finite. -/
def calculate_portfolio_weights (tickers : List String) (shares : List ℚ)
    (currentPrices : String → Option ℚ) : Option (List (Option ℚ)) :=
  if tickers.length = 1 then some [some 1]
  else
    (mapOption (fun ts => (currentPrices ts.1).map (fun p => p * ts.2))
      (tickers.zip shares)).map
      fun vals => vals.map (fun v => if vals.sum = 0 then none else some (v / vals.sum))

/-- Spec-side inner join, following the words of the spec: keep the dates of
the first series that are also present in the second, in order, and pair the
two prices at each kept date. -/
def specAlign (s1 s2 : PriceSeries) : List (ℚ × ℚ) :=
  (s1.filter (fun dp => (s2.lookup dp.1).isSome)).map
    (fun dp => (dp.2, (s2.lookup dp.1).getD 0))

/-- Spec-side return construction, following the words of the spec: at each
date with a predecessor within the aligned series, the simple fractional
return relative to that immediate predecessor; the first aligned date (no
predecessor) is dropped. -/
def specReturns : List ℚ → List ℚ
  | p :: q :: rest => (q - p) / p :: specReturns (q :: rest)
  | _ => []

/-! Helper lemmas. -/

theorem pctChange_length (xs : List ℚ) : (pctChange xs).length = xs.length - 1 := by
  simp [pctChange]

theorem pctChange_eq_specReturns : (xs : List ℚ) → pctChange xs = specReturns xs
  | [] => rfl
  | [_] => rfl
  | p :: q :: rest => by
    rw [specReturns, ← pctChange_eq_specReturns (q :: rest)]
    simp [pctChange]

theorem alignSeries_eq_specAlign (s1 s2 : PriceSeries) :
    alignSeries s1 s2 = specAlign s1 s2 := by
  induction s1 with
  | nil => rfl
  | cons dp rest ih =>
    simp only [alignSeries, specAlign, List.filterMap_cons, List.filter_cons] at *
    cases h : s2.lookup dp.1 with
    | none => simpa [h] using ih
    | some q => simpa [h] using ih

theorem mapOption_eq_some_map {α β : Type} (f : α → Option β) (g : α → β) :
    (l : List α) → (∀ x ∈ l, f x = some (g x)) → mapOption f l = some (l.map g)
  | [], _ => rfl
  | a :: l, h => by
    have ha := h a (List.mem_cons_self a l)
    have hl := mapOption_eq_some_map f g l (fun x hx => h x (List.mem_cons_of_mem a hx))
    simp [mapOption, ha, hl]

theorem sum_map_div (l : List ℚ) (c : ℚ) : (l.map (fun v => v / c)).sum = l.sum / c := by
  induction l with
  | nil => simp
  | cons a l ih => simp [ih, add_div]

theorem div_div_cancel_denom {S T c : ℚ} (hT : T ≠ 0) (hc : c ≠ 0) :
    S / c / (T / c) = S / T := by
  field_simp

theorem lookup_perm {α β : Type} [BEq α] [LawfulBEq α] {l1 l2 : List (α × β)}
    (h : l1.Perm l2) :
    (l1.map Prod.fst).Nodup → ∀ a, l1.lookup a = l2.lookup a := by
  induction h with
  | nil => intro _ a; rfl
  | cons x h ih =>
    intro nd a
    have ndt : ((_ : List (α × β)).map Prod.fst).Nodup := (List.nodup_cons.mp nd).2
    cases hax : a == x.1 <;> simp [List.lookup, hax, ih ndt a]
  | swap x y l =>
    intro nd a
    have hyx : y.1 ≠ x.1 := by
      have := (List.nodup_cons.mp nd).1
      simp only [List.map_cons, List.mem_cons] at this
      exact fun e => this (Or.inl e)
    cases hay : a == y.1 <;> cases hax : a == x.1 <;>
      simp only [List.lookup, hay, hax]
    exact absurd (by rw [← eq_of_beq hay, ← eq_of_beq hax]) hyx
  | trans h12 _ ih12 ih23 =>
    intro nd a
    have nd2 := ((h12.map Prod.fst).nodup_iff).mp nd
    exact (ih12 nd a).trans (ih23 nd2 a)

/-! Theorems for the claims. -/

/-- C2: the return-series construction first restricts both price series to
their common dates (inner join, dropping any date present in only one
series), then computes at each remaining position the simple fractional
return relative to the immediate predecessor within the aligned series,
drops the first aligned date, and yields two return sequences of equal
length (namely one less than the number of aligned dates). -/
theorem return_series_matches_spec (s1 s2 : PriceSeries) :
    alignSeries s1 s2 = specAlign s1 s2 ∧
    pctChange ((alignSeries s1 s2).map Prod.fst) =
      specReturns ((specAlign s1 s2).map Prod.fst) ∧
    pctChange ((alignSeries s1 s2).map Prod.snd) =
      specReturns ((specAlign s1 s2).map Prod.snd) ∧
    (pctChange ((alignSeries s1 s2).map Prod.fst)).length =
      (pctChange ((alignSeries s1 s2).map Prod.snd)).length ∧
    (pctChange ((alignSeries s1 s2).map Prod.fst)).length =
      (alignSeries s1 s2).length - 1 := by
  refine ⟨alignSeries_eq_specAlign s1 s2, ?_, ?_, ?_, ?_⟩
  · rw [pctChange_eq_specReturns, alignSeries_eq_specAlign]
  · rw [pctChange_eq_specReturns, alignSeries_eq_specAlign]
  · simp [pctChange_length]
  · simp [pctChange_length]

/-- C8: estimating Beta of a valid return sequence (length at least 2,
nonzero sample variance) against itself yields exactly 1. -/
theorem beta_self_eq_one (x : List ℚ) (h2 : 2 ≤ x.length) (hv : sampleVar x ≠ 0) :
    betaFromReturns x x = some 1 := by
  have hlt : ¬ (x.length < 2 ∨ x.length < 2) := by omega
  have hcv : sampleCov x x = sampleVar x := rfl
  unfold betaFromReturns
  rw [if_neg hlt, if_neg hv, hcv, div_self hv]

/-- Witness for C8 at the concrete return sequence `[1, 2]`. -/
theorem beta_self_eq_one_witness : betaFromReturns [(1 : ℚ), 2] [(1 : ℚ), 2] = some 1 :=
  beta_self_eq_one [(1 : ℚ), 2] (by decide)
    (by norm_num [sampleVar, sampleCov, devSum, mean])

/-- C1: on an aligned pair of equal-length return sequences of length at
least 2 (with nonzero benchmark variance, so the result is finite), the code
computes Beta as the sample (`n - 1` denominator) covariance of the two
sequences divided by the sample variance of the benchmark sequence, both over
the same `n` observations; and since the two statistics share the convention
and the `n`, the ratio coincides with the population-convention one. -/
theorem beta_formula_sample_convention (a b : List ℚ)
    (hlen : a.length = b.length) (h2 : 2 ≤ b.length) (hv : sampleVar b ≠ 0) :
    betaFromReturns a b = some (sampleCov a b / sampleVar b) ∧
    sampleCov a b / sampleVar b = popCov a b / popVar b := by
  have hT : devSum b b ≠ 0 := by
    intro h0
    exact hv (by simp [sampleVar, sampleCov, h0])
  have hcast : (2 : ℚ) ≤ (b.length : ℚ) := by exact_mod_cast h2
  have hm1 : ((b.length : ℚ) - 1) ≠ 0 := by linarith
  have hm : ((b.length : ℚ)) ≠ 0 := by linarith
  refine ⟨?_, ?_⟩
  · have hlt : ¬ (a.length < 2 ∨ b.length < 2) := by omega
    unfold betaFromReturns
    rw [if_neg hlt, if_neg hv]
  · have e1 : sampleCov a b / sampleVar b = devSum a b / devSum b b := by
      unfold sampleVar sampleCov
      rw [hlen]
      exact div_div_cancel_denom hT hm1
    have e2 : popCov a b / popVar b = devSum a b / devSum b b := by
      unfold popVar popCov
      rw [hlen]
      exact div_div_cancel_denom hT hm
    rw [e1, e2]

/-- Witness for C1 at the concrete return sequences `[1, 2]` and `[1, 3]`. -/
theorem beta_formula_sample_convention_witness :
    betaFromReturns [(1 : ℚ), 2] [(1 : ℚ), 3] =
      some (sampleCov [(1 : ℚ), 2] [(1 : ℚ), 3] / sampleVar [(1 : ℚ), 3]) ∧
    sampleCov [(1 : ℚ), 2] [(1 : ℚ), 3] / sampleVar [(1 : ℚ), 3] =
      popCov [(1 : ℚ), 2] [(1 : ℚ), 3] / popVar [(1 : ℚ), 3] :=
  beta_formula_sample_convention [(1 : ℚ), 2] [(1 : ℚ), 3] rfl (by decide)
    (by norm_num [sampleVar, sampleCov, devSum, mean])

/-- C3 counterexample: on a constant benchmark price series the code does not
raise any error (no `DegenerateBenchmarkError` exists anywhere in `main.py`);
it performs the division by the zero variance and returns the resulting
non-finite float (`NaN`), modelled as `none` — so the computation does not
"fail with DegenerateBenchmarkError" as claimed. -/
theorem constant_benchmark_no_error_cex :
    calculate_individual_beta [(0, 100), (1, 102), (2, 101), (3, 105)]
      [(0, 50), (1, 50), (2, 50), (3, 50)] = none := by
  have h : alignSeries [(0, 100), (1, 102), (2, 101), (3, 105)]
      [(0, 50), (1, 50), (2, 50), (3, 50)] =
      [(100, 50), (102, 50), (101, 50), (105, 50)] := by
    simp [alignSeries, List.filterMap_cons, List.lookup_cons]
  simp only [calculate_individual_beta, h]
  norm_num [betaFromReturns, pctChange, sampleVar, sampleCov, devSum, mean]

/-- C3 (amended): on every input whose benchmark return series has zero
sample variance (for example a constant benchmark price series), the code
performs the division anyway and the result is the non-finite float (`NaN` or
`inf`) modelled as `none`; it never raises — `main.py` defines no
`DegenerateBenchmarkError`. -/
theorem zero_variance_benchmark_nonfinite (stockData indexData : PriceSeries)
    (hv : sampleVar (pctChange ((alignSeries stockData indexData).map Prod.snd)) = 0) :
    calculate_individual_beta stockData indexData = none := by
  simp [calculate_individual_beta, betaFromReturns, hv, ite_self]

/-- Witness for the amended C3 at a concrete constant benchmark series. -/
theorem zero_variance_benchmark_nonfinite_witness :
    calculate_individual_beta [(0, 1), (1, 2), (2, 4)] [(0, 50), (1, 50), (2, 50)] = none :=
  zero_variance_benchmark_nonfinite [(0, 1), (1, 2), (2, 4)] [(0, 50), (1, 50), (2, 50)]
    (by
      have h : alignSeries [(0, 1), (1, 2), (2, 4)] [(0, 50), (1, 50), (2, 50)] =
          [(1, 50), (2, 50), (4, 50)] := by
        simp [alignSeries, List.filterMap_cons, List.lookup_cons]
      rw [h]
      norm_num [pctChange, sampleVar, sampleCov, devSum, mean])

/-- C4 counterexample: feeding a single aligned date does not raise — the
code has no `InsufficientDataError` (nor any raise at all) and no
`ZeroDivisionError` occurs either: the `ddof = 1` statistics of the empty
return series are the float `NaN`, and the code returns the resulting
non-finite value, modelled as `none` — so the computation does not "fail with
InsufficientDataError" as claimed. -/
theorem single_aligned_date_no_error_cex :
    calculate_individual_beta [(0, 100), (5, 101)] [(0, 50)] = none := by
  decide

/-- C4 (amended): whenever the inner join leaves at most two aligned dates —
so fewer than two return observations, covering in particular a single
aligned date — the `ddof = 1` covariance and variance are the float `NaN`,
and the code returns the resulting non-finite value (modelled `none`) without
raising anything; `main.py` defines no `InsufficientDataError`, and no
division-by-zero exception occurs. -/
theorem insufficient_data_nonfinite (stockData indexData : PriceSeries)
    (h : (alignSeries stockData indexData).length ≤ 2) :
    calculate_individual_beta stockData indexData = none := by
  have h1 : (pctChange ((alignSeries stockData indexData).map Prod.fst)).length < 2 := by
    rw [pctChange_length, List.length_map]
    omega
  simp only [calculate_individual_beta, betaFromReturns]
  exact if_pos (Or.inl h1)

/-- Witness for the amended C4 at a concrete single aligned date. -/
theorem insufficient_data_nonfinite_witness :
    calculate_individual_beta [(0, 100)] [(0, 50)] = none :=
  insufficient_data_nonfinite [(0, 100)] [(0, 50)]
    (by decide)

/-- C6: a portfolio of exactly one position gets the weight list `[1.0]`
exactly, regardless of prices, and the computation performs no price lookup:
the result is identical for every price mapping, including the
everywhere-undefined one. -/
theorem single_position_weight_one (tickers : List String) (shares : List ℚ)
    (p1 p2 : String → Option ℚ) (h1 : tickers.length = 1) :
    calculate_portfolio_weights tickers shares p1 = some [some 1] ∧
    calculate_portfolio_weights tickers shares p1 =
      calculate_portfolio_weights tickers shares p2 := by
  unfold calculate_portfolio_weights
  rw [if_pos h1, if_pos h1]
  exact ⟨rfl, rfl⟩

/-- Witness for C6: a one-position portfolio whose price mapping is
everywhere-undefined still gets weight 1. -/
theorem single_position_weight_one_witness :
    calculate_portfolio_weights ["A"] [5] (fun _ => none) = some [some 1] ∧
    calculate_portfolio_weights ["A"] [5] (fun _ => none) =
      calculate_portfolio_weights ["A"] [5] (fun _ => some 3) :=
  single_position_weight_one ["A"] [5] (fun _ => none) (fun _ => some 3) rfl

/-- C10: with an empty position list (and the index column present, as the
provider guarantees) the portfolio Beta computation returns 0 rather than
failing: the weighted sum starts at 0 and the loop adds no term. -/
theorem empty_portfolio_beta_zero (stockWeights : List ℚ) (table : PriceTable)
    (indexTicker : String) (s : PriceSeries)
    (h : table.lookup indexTicker = some s) :
    calculate_portfolio_beta [] stockWeights table indexTicker = some 0 := by
  simp [calculate_portfolio_beta, h, mapOption]

/-- Witness for C10 on a concrete one-column table. -/
theorem empty_portfolio_beta_zero_witness :
    calculate_portfolio_beta [] [] [("I", [])] "I" = some 0 :=
  empty_portfolio_beta_zero [] [("I", [])] "I" [] (by decide)

/-- C5: with at least two positions, positive share counts and positive
present prices, the weights are exactly
`price(ticker) * shareCount / totalPortfolioValue`, they sum to exactly 1
(hence to 1 within a relative tolerance of `1e-9`), and each weight is
strictly positive. -/
theorem weights_formula_sum_one_pos (tickers : List String) (shares : List ℚ)
    (currentPrices : String → Option ℚ)
    (hlen : tickers.length = shares.length) (h2 : 2 ≤ tickers.length)
    (hp : ∀ t ∈ tickers, ∃ p, currentPrices t = some p ∧ 0 < p)
    (hs : ∀ s ∈ shares, 0 < s) :
    ∃ ws : List ℚ,
      calculate_portfolio_weights tickers shares currentPrices = some (ws.map some) ∧
      ws = (tickers.zip shares).map
        (fun ts => (currentPrices ts.1).getD 0 * ts.2 /
          ((tickers.zip shares).map (fun ts2 => (currentPrices ts2.1).getD 0 * ts2.2)).sum) ∧
      ws.sum = 1 ∧ (∀ w ∈ ws, 0 < w) := by
  have hmap : mapOption (fun ts => (currentPrices ts.1).map (fun p => p * ts.2))
        (tickers.zip shares) =
      some ((tickers.zip shares).map (fun ts => (currentPrices ts.1).getD 0 * ts.2)) := by
    apply mapOption_eq_some_map
    intro ts hts
    obtain ⟨p, hp1, _⟩ := hp ts.1 (List.of_mem_zip hts).1
    rw [hp1]
    rfl
  have hpos : ∀ v ∈ (tickers.zip shares).map
      (fun ts => (currentPrices ts.1).getD 0 * ts.2), 0 < v := by
    intro v hv
    obtain ⟨ts, hts, rfl⟩ := List.mem_map.mp hv
    obtain ⟨p, hp1, hp2⟩ := hp ts.1 (List.of_mem_zip hts).1
    have hs2 := hs ts.2 (List.of_mem_zip hts).2
    rw [hp1]
    simpa using mul_pos hp2 hs2
  have hne : (tickers.zip shares).map
      (fun ts => (currentPrices ts.1).getD 0 * ts.2) ≠ [] := by
    intro h0
    have hz := List.map_eq_nil_iff.mp h0
    have : (tickers.zip shares).length = 0 := by rw [hz]; rfl
    rw [List.length_zip, hlen] at this
    omega
  have htot : 0 < ((tickers.zip shares).map
      (fun ts => (currentPrices ts.1).getD 0 * ts.2)).sum :=
    List.sum_pos _ hpos hne
  have htot' : ((tickers.zip shares).map
      (fun ts => (currentPrices ts.1).getD 0 * ts.2)).sum ≠ 0 := ne_of_gt htot
  refine ⟨((tickers.zip shares).map (fun ts => (currentPrices ts.1).getD 0 * ts.2)).map
    (fun v => v / ((tickers.zip shares).map
      (fun ts => (currentPrices ts.1).getD 0 * ts.2)).sum), ?_, ?_, ?_, ?_⟩
  · unfold calculate_portfolio_weights
    rw [if_neg (by omega : ¬ tickers.length = 1)]
    rw [hmap]
    simp [htot', List.map_map, Function.comp]
  · rw [List.map_map]
    rfl
  · rw [sum_map_div]
    exact div_self htot'
  · intro w hw
    obtain ⟨v, hv, rfl⟩ := List.mem_map.mp hw
    exact div_pos (hpos v hv) htot

/-- Witness for C5 on a concrete two-position portfolio with a constant
price of 10. -/
theorem weights_formula_sum_one_pos_witness :
    ∃ ws : List ℚ,
      calculate_portfolio_weights ["A", "B"] [1, 1] (fun _ => some 10) = some (ws.map some) ∧
      ws = ((["A", "B"].zip [(1 : ℚ), 1]).map
        (fun ts => ((fun _ => some (10 : ℚ)) ts.1).getD 0 * ts.2 /
          ((["A", "B"].zip [(1 : ℚ), 1]).map
            (fun ts2 => ((fun _ => some (10 : ℚ)) ts2.1).getD 0 * ts2.2)).sum)) ∧
      ws.sum = 1 ∧ (∀ w ∈ ws, 0 < w) :=
  weights_formula_sum_one_pos ["A", "B"] [1, 1] (fun _ => some 10) rfl (by decide)
    (fun t _ => ⟨10, rfl, by norm_num⟩)
    (by
      intro s hs
      rcases List.mem_cons.mp hs with h | h
      · rw [h]; norm_num
      · simp at h; rw [h]; norm_num)

/-- C9 counterexample: with two positions whose prices are all 0 the total
portfolio value is 0, yet the code performs the division anyway: the result
is a list of non-finite float weights (`NaN`, modelled by inner `none`
entries) and nothing is raised — `main.py` defines no `ZeroValuationError` —
so the computation does not "fail with ZeroValuationError" as claimed. -/
theorem zero_total_value_no_error_cex :
    calculate_portfolio_weights ["A", "B"] [1, 1] (fun _ => some 0) = some [none, none] := by
  norm_num [calculate_portfolio_weights, mapOption]

/-- C9 (amended): on every multi-position input with all prices present whose
total portfolio value computes to zero, the code performs the division by the
zero total and returns a list of non-finite float weights (one `NaN` per
position, modelled `none`), rather than raising any error. -/
theorem zero_total_value_nonfinite_weights (tickers : List String) (shares : List ℚ)
    (currentPrices : String → Option ℚ) (h1 : tickers.length ≠ 1)
    (hp : ∀ t ∈ tickers, ∃ p, currentPrices t = some p)
    (h0 : ((tickers.zip shares).map (fun ts => (currentPrices ts.1).getD 0 * ts.2)).sum = 0) :
    calculate_portfolio_weights tickers shares currentPrices =
      some (List.replicate (tickers.zip shares).length none) := by
  have hmap : mapOption (fun ts => (currentPrices ts.1).map (fun p => p * ts.2))
        (tickers.zip shares) =
      some ((tickers.zip shares).map (fun ts => (currentPrices ts.1).getD 0 * ts.2)) := by
    apply mapOption_eq_some_map
    intro ts hts
    obtain ⟨p, hp1⟩ := hp ts.1 (List.of_mem_zip hts).1
    rw [hp1]
    rfl
  unfold calculate_portfolio_weights
  rw [if_neg h1, hmap]
  show some _ = some _
  congr 1
  simp only [h0, eq_self_iff_true, if_true]
  rw [List.map_const', List.length_map]

/-- Witness for the amended C9 at a concrete zero-valued two-position
portfolio with mixed-sign position values. -/
theorem zero_total_value_nonfinite_weights_witness :
    calculate_portfolio_weights ["A", "B"] [1, -1] (fun _ => some 5) =
      some (List.replicate (["A", "B"].zip [(1 : ℚ), -1]).length none) :=
  zero_total_value_nonfinite_weights ["A", "B"] [1, -1] (fun _ => some 5) (by decide)
    (fun t _ => ⟨5, rfl⟩)
    (by norm_num [List.zip])

/-- C7 counterexample: weights are NOT paired with betas by ticker identity
but by position in the caller's parallel lists: `stock_weights[i]` is paired
with whatever ticker sits at index `i` of `stock_tickers`.  Permuting the
ticker list while holding the weight list fixed re-pairs the weights with
different tickers (hence different betas) and changes the result — with a
ticker-keyed join the weight would follow its ticker. Here ticker "A" has
Beta 1 and ticker "B" has Beta 1/2 against index "I"; the weight 1 attaches
to whichever ticker is listed first, giving 1 versus 1/2. -/
theorem weights_positional_pairing_cex :
    calculate_portfolio_beta ["A", "B"] [1, 0]
      [("A", [(0, 1), (1, 2), (2, 1)]), ("B", [(0, 1), (1, 3/2), (2, 9/8)]),
        ("I", [(0, 1), (1, 2), (2, 1)])] "I" ≠
    calculate_portfolio_beta ["B", "A"] [1, 0]
      [("A", [(0, 1), (1, 2), (2, 1)]), ("B", [(0, 1), (1, 3/2), (2, 9/8)]),
        ("I", [(0, 1), (1, 2), (2, 1)])] "I" := by
  have hA : calculate_individual_beta [(0, 1), (1, 2), (2, 1)] [(0, 1), (1, 2), (2, 1)] =
      some 1 := by
    have h : alignSeries [(0, 1), (1, 2), (2, 1)] [(0, 1), (1, 2), (2, 1)] =
        [(1, 1), (2, 2), (1, 1)] := by
      simp [alignSeries, List.filterMap_cons, List.lookup_cons]
    simp only [calculate_individual_beta, h]
    norm_num [betaFromReturns, pctChange, sampleVar, sampleCov, devSum, mean]
  have hB : calculate_individual_beta [(0, 1), (1, 3/2), (2, 9/8)] [(0, 1), (1, 2), (2, 1)] =
      some (1/2) := by
    have h : alignSeries [(0, 1), (1, 3/2), (2, 9/8)] [(0, 1), (1, 2), (2, 1)] =
        [(1, 1), (3/2, 2), (9/8, 1)] := by
      simp [alignSeries, List.filterMap_cons, List.lookup_cons]
    simp only [calculate_individual_beta, h]
    norm_num [betaFromReturns, pctChange, sampleVar, sampleCov, devSum, mean]
  have e1 : ("I" == "A") = false := by decide
  have e2 : ("I" == "B") = false := by decide
  have e3 : ("B" == "A") = false := by decide
  have e4 : ("A" == "B") = false := by decide
  have e5 : ("A" == "I") = false := by decide
  have e6 : ("B" == "I") = false := by decide
  have e7 : ("I" == "I") = true := by decide
  have e8 : ("A" == "A") = true := by decide
  have e9 : ("B" == "B") = true := by decide
  simp only [calculate_portfolio_beta, mapOption, List.lookup_cons, e1, e2, e3, e4, e5,
    e6, e7, e8, e9, Option.some_bind]
  rw [hA, hB]
  norm_num [Option.some_bind]

/-- C7 (amended): the half of the claim that holds — provider columns are
accessed by ticker key, so the portfolio Beta is invariant under any
reordering of the provider's table (with distinct column tickers); the
weight-to-ticker pairing itself, however, is positional in the caller's
parallel lists (see the counterexample). -/
theorem portfolio_beta_table_perm_invariant (stockTickers : List String)
    (stockWeights : List ℚ) (t1 t2 : PriceTable) (indexTicker : String)
    (hperm : t1.Perm t2) (hnd : (t1.map Prod.fst).Nodup) :
    calculate_portfolio_beta stockTickers stockWeights t1 indexTicker =
      calculate_portfolio_beta stockTickers stockWeights t2 indexTicker := by
  have hl := lookup_perm hperm hnd
  simp only [calculate_portfolio_beta, hl]

/-- Witness for the amended C7: swapping the two columns of a concrete
provider table leaves the portfolio Beta unchanged. -/
theorem portfolio_beta_table_perm_invariant_witness :
    calculate_portfolio_beta ["A"] [1]
      [("A", [(0, 1), (1, 2), (2, 1)]), ("I", [(0, 1), (1, 2), (2, 1)])] "I" =
    calculate_portfolio_beta ["A"] [1]
      [("I", [(0, 1), (1, 2), (2, 1)]), ("A", [(0, 1), (1, 2), (2, 1)])] "I" :=
  portfolio_beta_table_perm_invariant ["A"] [1] _ _ "I"
    (List.Perm.swap ("I", [(0, 1), (1, 2), (2, 1)]) ("A", [(0, 1), (1, 2), (2, 1)]) [])
    (by decide)

end BetaCalc
